import Mathlib

/-!
# Verification of the workplace-scheduler shift-generation engine

Shallow embedding of the scheduling engine of `src/App.py`
(`parse_availability`, `is_worker_available`, `find_alternative_workers`,
`create_shifts_from_availability`) and proofs settling the frozen claims.

Modelling conventions:

* Decimal hours are rationals (`ℚ`).  The Python code stores times both as
  `"HH:MM"` strings and as decimal-hour floats obtained by
  `time_to_hour`; every decimal hour flowing through the engine is a
  multiple of `1/60` (possibly shifted by 24), for which the
  `hour_to_time_str`/`time_to_hour` round trip is exact, so shifts carry
  the rational hours directly.
* Python `dict`s keyed by strings become association lists with Python's
  semantics: lookup finds the first entry, update rewrites the value in
  place, and a fresh key is appended at the end (insertion order).
* `random.seed(datetime.now().timestamp())` makes one run a deterministic
  function of the wall-clock seed; the seed is an explicit `Nat`
  parameter here, and `random.shuffle` / `random.random` are modelled by
  a deterministic linear-congruential generator threaded through the
  computation exactly where the Python code consumes randomness.
  `list.sort` is a stable sort, modelled by a stable insertion sort.
* Python floats are modelled as exact rationals.
-/

/-- Python `dict.get(k, default)` on a string-keyed association list:
the first entry with the key wins. -/
def dictGetD {β : Type} (l : List (String × β)) (k : String) (d : β) : β :=
  match l with
  | [] => d
  | (k', v) :: rest => if k' = k then v else dictGetD rest k d

/-- Python `k in dict`. -/
def dictMem {β : Type} (l : List (String × β)) (k : String) : Bool :=
  match l with
  | [] => false
  | (k', _) :: rest => if k' = k then true else dictMem rest k

/-- Python `dict[k] = v`: rewrite the first entry with key `k` in place,
or append a fresh entry at the end (insertion order). -/
def dictSet {β : Type} (l : List (String × β)) (k : String) (v : β) : List (String × β) :=
  match l with
  | [] => [(k, v)]
  | (k', v') :: rest => if k' = k then (k', v) :: rest else (k', v') :: dictSet rest k v

/-- Linear-congruential step standing in for Python's seeded Mersenne
twister: the engine only needs a deterministic stream of pseudo-random
numbers derived from the per-run seed. -/
def lcg (s : Nat) : Nat :=
  (1103515245 * s + 12345) % 2147483648

/-- A stream of `n` pseudo-random numbers, as consumed by the per-element
`random.random()` sort keys. -/
def genRands : Nat → Nat → List Nat × Nat
  | 0, s => ([], s)
  | n + 1, s =>
    let s' := lcg s
    let p := genRands n s'
    (s' :: p.1, p.2)

/-- Remove the `i`-th element of a list, returning it with the remainder. -/
def pickOut {α : Type} : List α → Nat → Option (α × List α)
  | [], _ => none
  | x :: xs, 0 => some (x, xs)
  | x :: xs, i + 1 =>
    match pickOut xs i with
    | none => none
    | some (y, ys) => some (y, x :: ys)

/-- Fisher–Yates-style shuffle driven by the LCG stream (fuel-indexed so
that it is structurally recursive; the fuel is the list length, which is
always sufficient). -/
def shuffleGo {α : Type} : Nat → List α → Nat → List α × Nat
  | 0, l, s => (l, s)
  | n + 1, l, s =>
    let s' := lcg s
    match pickOut l (s' % l.length) with
    | none => (l, s')
    | some (x, rest) =>
      let p := shuffleGo n rest s'
      (x :: p.1, p.2)

/-- Models Python's in-place `random.shuffle`, returning the shuffled list
and the advanced generator state. -/
def shuffle {α : Type} (l : List α) (s : Nat) : List α × Nat :=
  shuffleGo l.length l s

/-- Insert `x` after every element `y` with `le y x`; the building block of
a stable insertion sort. -/
def stableInsert {α : Type} (le : α → α → Bool) (x : α) : List α → List α
  | [] => [x]
  | y :: ys => if le y x then y :: stableInsert le x ys else x :: y :: ys

/-- Stable sort (the output agrees with Python's stable `list.sort` for
the given total preorder, since a stable sort is unique). -/
def stableSort {α : Type} (le : α → α → Bool) (l : List α) : List α :=
  l.foldl (fun acc x => stableInsert le x acc) []

/-- One availability window of a worker, in decimal hours
(`start_hour`/`end_hour` of the Python availability dicts). -/
structure Window where
  startHour : ℚ
  endHour : ℚ
deriving DecidableEq, Repr

/-- A worker record: the fields of the Python worker dicts consumed by the
engine. -/
structure Worker where
  email : String
  first_name : String
  last_name : String
  work_study : Bool
  availability : List (String × List Window)
deriving DecidableEq, Repr

/-- Python `f"{w['first_name']} {w['last_name']}"`. -/
def fullName (w : Worker) : String :=
  w.first_name ++ " " ++ w.last_name

/-- One hours-of-operation block for a day, already converted to decimal
hours by `time_to_hour`. -/
structure OpBlock where
  startHour : ℚ
  endHour : ℚ
deriving DecidableEq, Repr

/-- A generated shift as appended to `schedule[day]` (App.py lines
265-273 and 422-429); `startHour`/`endHour` are the decimal hours whose
`hour_to_time_str` renderings the Python dict stores. -/
structure Shift where
  startHour : ℚ
  endHour : ℚ
  assigned : List String
  available : List String
  raw_assigned : List String
  all_available : List Worker
  is_work_study : Bool
deriving DecidableEq, Repr

/-- An entry of `unfilled_shifts` (App.py lines 413-419). -/
structure UnfilledShift where
  day : String
  startHour : ℚ
  endHour : ℚ
deriving DecidableEq, Repr

/-- The mutable state of one generation run. -/
structure GenState where
  schedule : List (String × List Shift)
  unfilled : List UnfilledShift
  hours : List (String × ℚ)
  days : List (String × List String)
  rng : Nat
deriving DecidableEq, Repr

/-- The tuple returned by `create_shifts_from_availability`
(App.py line 477).  `work_study_issues` entries keep name and hour count
separately (Python formats them into one string); `alternative_solutions`
keys keep the `(day, start, end)` triple that Python renders as
`f"{day} {start}-{end}"`. -/
structure ScheduleResult where
  schedule : List (String × List Shift)
  assigned_hours : List (String × ℚ)
  low_hour_workers : List String
  unassigned_workers : List String
  alternative_solutions : List ((String × ℚ × ℚ) × List String)
  unfilled_shifts : List UnfilledShift
  work_study_issues : List (String × ℚ)
deriving DecidableEq, Repr

/-- Overnight normalization of a parsed availability window: App.py lines
108-125 (`if end_hour < start_hour: end_hour += 24`), strict comparison. -/
def parse_window (start_hour end_hour : ℚ) : Window :=
  { startHour := start_hour
    endHour := if end_hour < start_hour then end_hour + 24 else end_hour }

/-- The numeric core of `parse_availability` (App.py lines 81-127): the
already-matched `(day, start_hour, end_hour)` triples are grouped into the
per-day availability dict, normalizing each window via `parse_window`.
(The regex matching and day-name canonicalization are upstream of the
decimal-hour logic modelled here.) -/
def parse_availability (entries : List (String × ℚ × ℚ)) : List (String × List Window) :=
  entries.foldl
    (fun acc e =>
      dictSet acc e.1 (dictGetD acc e.1 [] ++ [parse_window e.2.1 e.2.2]))
    []

/-- Overnight normalization of an operation block as done inside the
engine (App.py lines 246-247 and 312-313:
`if end_hour <= start_hour: end_hour += 24`), non-strict comparison. -/
def normalizeOpEnd (start_hour end_hour : ℚ) : ℚ :=
  if end_hour ≤ start_hour then end_hour + 24 else end_hour

/-- `overlaps` (App.py lines 155-157). -/
def overlaps (start1 end1 start2 end2 : ℚ) : Bool :=
  decide (max start1 start2 < min end1 end2)

/-- `is_worker_available` (App.py lines 159-178): true iff some single
availability window of the worker for that day fully contains the shift. -/
def is_worker_available (worker : Worker) (day : String) (shift_start shift_end : ℚ) : Bool :=
  (dictGetD worker.availability day []).any
    (fun a => decide (a.startHour ≤ shift_start) && decide (shift_end ≤ a.endHour))

/-- `find_alternative_workers` (App.py lines 180-201). -/
def find_alternative_workers (workers : List Worker) (day : String)
    (shift_start shift_end : ℚ) (assigned_hours : List (String × ℚ))
    (max_hours_per_worker : ℚ) (already_assigned : List String) : List Worker :=
  let alternatives := workers.filter (fun w =>
    !(already_assigned.contains w.email) &&
    is_worker_available w day shift_start shift_end &&
    decide (dictGetD assigned_hours w.email 0 + (shift_end - shift_start)
              ≤ max_hours_per_worker * (3 / 2)))
  stableSort
    (fun a b => decide (dictGetD assigned_hours a.email 0 ≤ dictGetD assigned_hours b.email 0))
    alternatives

/-- The eligible-worker filter of the regular pass (App.py lines 378-395):
skip a work-study worker already at 5 hours, skip a work-study worker at 0
hours unless the candidate lasts exactly 5 hours, then require containment
availability and the hour cap. -/
def availableWorkersFor (workers : List Worker) (statuses : List (String × Bool))
    (hours : List (String × ℚ)) (day : String) (cur send : ℚ)
    (max_hours_per_worker : ℚ) : List Worker :=
  workers.filter (fun w =>
    let h := dictGetD hours w.email 0
    let ws := dictGetD statuses w.email false
    !(ws && decide (5 ≤ h)) &&
    !(ws && decide (h = 0) && decide (¬ send - cur = 5)) &&
    is_worker_available w day cur send &&
    decide (h + (send - cur) ≤ max_hours_per_worker))

/-- The stable-sort preorder of App.py line 399: ascending pair
`(assigned_hours[email], random.random())`. -/
def sortKeyLe (hours : List (String × ℚ)) (a b : Worker × Nat) : Bool :=
  decide (dictGetD hours a.1.email 0 < dictGetD hours b.1.email 0) ||
  (decide (dictGetD hours a.1.email 0 = dictGetD hours b.1.email 0) && decide (a.2 ≤ b.2))

/-- `available_workers.sort(key=lambda w: (assigned_hours[w['email']], random.random()))`
(App.py line 399): each worker gets one pseudo-random tie-break key. -/
def sortedAvailable (hours : List (String × ℚ)) (avail : List Worker)
    (rands : List Nat) : List Worker :=
  (stableSort (sortKeyLe hours) (avail.zip rands)).map (fun p => p.1)

/-- `assigned_days[email].add(day)`. -/
def addDay (days : List (String × List String)) (email day : String) :
    List (String × List String) :=
  let cur := dictGetD days email []
  dictSet days email (if cur.contains day then cur else cur ++ [day])

/-- The assignment loop of App.py lines 402-409: each assigned worker's
hours grow by the shift duration and the day is recorded. -/
def assignFold (assigned : List Worker) (day : String) (dur : ℚ) (st : GenState) : GenState :=
  assigned.foldl
    (fun st' w =>
      { st' with
        hours := dictSet st'.hours w.email (dictGetD st'.hours w.email 0 + dur)
        days := addDay st'.days w.email day })
    st

/-- Processing of one shift candidate `[cur, send)` of the regular pass
(App.py lines 377-432): compute the eligible set, sort it by
`(hours, random)`, assign the first `max_workers_per_shift`, record an
unfilled sentinel when nobody is assigned, and append the shift record. -/
def processCandidate (workers : List Worker) (statuses : List (String × Bool))
    (max_hours_per_worker : ℚ) (max_workers_per_shift : Nat) (day : String)
    (cur send : ℚ) (st : GenState) : GenState :=
  let avail := availableWorkersFor workers statuses st.hours day cur send max_hours_per_worker
  let pr := genRands avail.length st.rng
  let sorted := sortedAvailable st.hours avail pr.1
  let assigned := sorted.take max_workers_per_shift
  let st1 := assignFold assigned day (send - cur) { st with rng := pr.2 }
  let sh : Shift :=
    { startHour := cur
      endHour := send
      assigned := if assigned.isEmpty then ["Unfilled"] else assigned.map fullName
      available := sorted.map fullName
      raw_assigned := assigned.map (fun w => w.email)
      all_available := sorted
      is_work_study := false }
  { schedule := dictSet st1.schedule day (dictGetD st1.schedule day [] ++ [sh])
    unfilled := if assigned.isEmpty then st1.unfilled ++ [⟨day, cur, send⟩] else st1.unfilled
    hours := st1.hours
    days := st1.days
    rng := st1.rng }

/-- Interval subtraction of one existing shift from the pending slots
(App.py lines 323-339). -/
def subtractShift (sh : Shift) (slots : List (ℚ × ℚ)) : List (ℚ × ℚ) :=
  slots.flatMap (fun slot =>
    if slot.2 ≤ sh.startHour ∨ slot.1 ≥ sh.endHour then [slot]
    else
      (if slot.1 < sh.startHour then [(slot.1, sh.startHour)] else []) ++
      (if slot.2 > sh.endHour then [(sh.endHour, slot.2)] else []))

/-- The `while current_hour < slot_end` loop of App.py lines 358-432:
re-shuffle the candidate lengths, peel off the first length that fits, or
fall back to the minimum length capped at the slot end.  Structurally
recursive on a fuel argument; the caller passes the numerator of the slot
duration plus one, which exceeds the iteration count (each iteration
advances by at least one hour), so the fuel-exhaustion branch is never
the governing one — `fillSlot_fuel_irrel` below certifies this.  (Python's `min` of an empty list would raise; the
`minimum? = none` branch is unreachable because the length list is never
empty at call sites.) -/
def fillSlot (workers : List Worker) (statuses : List (String × Bool))
    (max_hours_per_worker : ℚ) (max_workers_per_shift : Nat) (day : String)
    (lengths : List Nat) (slotEnd : ℚ) : Nat → ℚ → GenState → GenState
  | 0, _, st => st
  | fuel + 1, cur, st =>
    if cur < slotEnd then
      let p := shuffle lengths st.rng
      let st1 : GenState := { st with rng := p.2 }
      match p.1.find? (fun (l : Nat) => decide (cur + (l : ℚ) ≤ slotEnd)) with
      | some l =>
        fillSlot workers statuses max_hours_per_worker max_workers_per_shift day
          lengths slotEnd fuel (cur + (l : ℚ))
          (processCandidate workers statuses max_hours_per_worker max_workers_per_shift
            day cur (cur + (l : ℚ)) st1)
      | none =>
        match p.1.min? with
        | some m =>
          processCandidate workers statuses max_hours_per_worker max_workers_per_shift
            day cur (min (cur + (m : ℚ)) slotEnd) st1
        | none => st1
    else st

/-- Processing of one remaining slot (App.py lines 342-356): skip slots
shorter than 2 hours, restrict the shift lengths to those that fit
(defaulting to `[2]`), shuffle them, and run the peeling loop. -/
def processSlot (workers : List Worker) (statuses : List (String × Bool))
    (max_hours_per_worker : ℚ) (max_workers_per_shift : Nat) (day : String)
    (shift_lengths : List Nat) (st : GenState) (slot : ℚ × ℚ) : GenState :=
  let slotDur := slot.2 - slot.1
  if slotDur < 2 then st
  else
    let pl0 := shift_lengths.filter (fun (l : Nat) => decide ((l : ℚ) ≤ slotDur))
    let pl : List Nat := if pl0.isEmpty then [2] else pl0
    let p := shuffle pl st.rng
    fillSlot workers statuses max_hours_per_worker max_workers_per_shift day
      p.1 slot.2 ((slot.2 - slot.1).num.toNat + 1) slot.1 { st with rng := p.2 }

/-- Processing of one operation block of a day (App.py lines 307-342):
normalize the block, subtract the intervals already consumed by existing
shifts of that day, and fill each remaining slot. -/
def processOp (workers : List Worker) (statuses : List (String × Bool))
    (max_hours_per_worker : ℚ) (max_workers_per_shift : Nat)
    (shift_lengths : List Nat) (day : String) (st : GenState) (op : OpBlock) : GenState :=
  let s := op.startHour
  let e := normalizeOpEnd s op.endHour
  let existing := (dictGetD st.schedule day []).filter
    (fun sh => overlaps sh.startHour sh.endHour s e)
  let slots := existing.foldl (fun sl sh => subtractShift sh sl) [(s, e)]
  slots.foldl (processSlot workers statuses max_hours_per_worker max_workers_per_shift
    day shift_lengths) st

/-- Processing of one day of the regular pass (App.py lines 294-307):
skip closed days, make sure the day has a schedule entry, shuffle the
operation blocks, and process each. -/
def processDay (hours_of_operation : List (String × List OpBlock))
    (workers : List Worker) (statuses : List (String × Bool))
    (max_hours_per_worker : ℚ) (max_workers_per_shift : Nat)
    (shift_lengths : List Nat) (st : GenState) (day : String) : GenState :=
  let ops := dictGetD hours_of_operation day []
  if ops.isEmpty then st
  else
    let st1 := if dictMem st.schedule day then st
      else { st with schedule := st.schedule ++ [(day, [])] }
    let p := shuffle ops st1.rng
    p.1.foldl (processOp workers statuses max_hours_per_worker max_workers_per_shift
      shift_lengths day) { st1 with rng := p.2 }

/-- Scan of the shuffled candidate start offsets of one operation block
for a 5-hour window for which the work-study worker is available
(App.py lines 256-259). -/
def wsScanStarts (w : Worker) (day : String) (starts : List ℚ) : Option ℚ :=
  starts.find? (fun p => is_worker_available w day p (p + 5))

/-- Scan of the operation blocks of one day for a 5-hour block
(App.py lines 241-284): blocks shorter than 5 hours are skipped, candidate
integer start offsets are shuffled, and the first hit wins. -/
def wsScanOps (w : Worker) (day : String) : List OpBlock → Nat → Option ℚ × Nat
  | [], rng => (none, rng)
  | op :: rest, rng =>
    let s := op.startHour
    let e := normalizeOpEnd s op.endHour
    if 5 ≤ e - s then
      let starts := (List.range ((e - s - 5).floor.toNat + 1)).map (fun i => s + (i : ℚ))
      let p := shuffle starts rng
      match wsScanStarts w day p.1 with
      | some q => (some q, p.2)
      | none => wsScanOps w day rest p.2
    else wsScanOps w day rest rng

/-- Scan of all days for a 5-hour work-study block (App.py lines 237-288),
stopping at the first success. -/
def wsScanDays (w : Worker) : List (String × List OpBlock) → Nat → Option (String × ℚ) × Nat
  | [], rng => (none, rng)
  | (day, ops) :: rest, rng =>
    if ops.isEmpty then wsScanDays w rest rng
    else
      match wsScanOps w day ops rng with
      | (some q, r) => (some (day, q), r)
      | (none, r) => wsScanDays w rest r

/-- The work-study pre-pass body for one worker (App.py lines 229-288):
skip if already at 5 hours, otherwise search for a 5-hour block and on
success materialize a dedicated work-study shift and set the worker's
hours to 5. -/
def wsAssign (hours_of_operation : List (String × List OpBlock)) (st : GenState)
    (w : Worker) : GenState :=
  if 5 ≤ dictGetD st.hours w.email 0 then st
  else
    match wsScanDays w hours_of_operation st.rng with
    | (none, r) => { st with rng := r }
    | (some (day, q), r) =>
      let sh : Shift :=
        { startHour := q
          endHour := q + 5
          assigned := [fullName w]
          available := [fullName w]
          raw_assigned := [w.email]
          all_available := [w]
          is_work_study := true }
      { schedule := dictSet st.schedule day (dictGetD st.schedule day [] ++ [sh])
        unfilled := st.unfilled
        hours := dictSet st.hours w.email 5
        days := addDay st.days w.email day
        rng := r }

/-- The work-study pre-pass (App.py lines 229-288): the shuffled
work-study workers are processed in turn. -/
def wsPass (hours_of_operation : List (String × List OpBlock))
    (work_study_workers : List Worker) (st : GenState) : GenState :=
  work_study_workers.foldl (wsAssign hours_of_operation) st

/-- The regular coverage pass (App.py lines 291-432): the shuffled days
are processed in turn. -/
def regularPass (hours_of_operation : List (String × List OpBlock))
    (workers : List Worker) (statuses : List (String × Bool))
    (max_hours_per_worker : ℚ) (max_workers_per_shift : Nat)
    (shift_lengths : List Nat) (days_list : List String) (st : GenState) : GenState :=
  days_list.foldl
    (processDay hours_of_operation workers statuses max_hours_per_worker
      max_workers_per_shift shift_lengths)
    st

/-- The per-email work-study flags (`work_study_status`, App.py line 222). -/
def mkStatuses (workers : List Worker) : List (String × Bool) :=
  workers.foldl (fun d w => dictSet d w.email w.work_study) []

/-- The engine state after both passes of `create_shifts_from_availability`
(App.py lines 203-432). -/
def finalState (hours_of_operation : List (String × List OpBlock))
    (workers : List Worker) (max_hours_per_worker : ℚ)
    (max_workers_per_shift : Nat) (seed : Nat) : GenState :=
  let p1 := shuffle [2, 3, 4, 5] seed
  let shift_lengths := p1.1
  let hours0 := workers.foldl (fun d w => dictSet d w.email (0 : ℚ)) []
  let days0 := workers.foldl (fun d w => dictSet d w.email ([] : List String)) []
  let statuses := mkStatuses workers
  let work_study_workers := workers.filter (fun w => dictGetD statuses w.email false)
  let p2 := shuffle work_study_workers p1.2
  let st0 : GenState := ⟨[], [], hours0, days0, p2.2⟩
  let st1 := wsPass hours_of_operation p2.1 st0
  let days_list := hours_of_operation.map (fun e => e.1)
  let p3 := shuffle days_list st1.rng
  regularPass hours_of_operation workers statuses max_hours_per_worker
    max_workers_per_shift shift_lengths p3.1 { st1 with rng := p3.2 }

/-- Python `dict[k] = v` for the `alternative_solutions` dict keyed by
the `(day, start, end)` triple rendered by `f"{day} {start}-{end}"`. -/
def altSet (l : List ((String × ℚ × ℚ) × List String)) (k : String × ℚ × ℚ)
    (v : List String) : List ((String × ℚ × ℚ) × List String) :=
  match l with
  | [] => [(k, v)]
  | (k', v') :: rest => if k' = k then (k', v) :: rest else (k', v') :: altSet rest k v

/-- `create_shifts_from_availability` (App.py lines 203-477).  The `seed`
argument models the per-run `random.seed(datetime.now().timestamp())`;
`workplace` is accepted and ignored exactly as in the Python function. -/
def create_shifts_from_availability (hours_of_operation : List (String × List OpBlock))
    (workers : List Worker) (workplace : String) (max_hours_per_worker : ℚ)
    (max_workers_per_shift : Nat) (seed : Nat) : ScheduleResult :=
  let _ := workplace
  let statuses := mkStatuses workers
  let st2 := finalState hours_of_operation workers max_hours_per_worker
    max_workers_per_shift seed
  let low_hour_workers := (workers.filter (fun w =>
    !(dictGetD statuses w.email false) && decide (dictGetD st2.hours w.email 0 < 4))).map fullName
  let unassigned_workers := (workers.filter (fun w =>
    decide (dictGetD st2.hours w.email 0 = 0))).map fullName
  let work_study_issues := (workers.filter (fun w =>
    dictGetD statuses w.email false && decide (¬ dictGetD st2.hours w.email 0 = 5))).map
    (fun w => (fullName w, dictGetD st2.hours w.email 0))
  let alternative_solutions := st2.unfilled.foldl
    (fun acc u =>
      let alternatives := find_alternative_workers workers u.day u.startHour u.endHour []
        (max_hours_per_worker * (3 / 2)) []
      if alternatives.isEmpty then acc
      else altSet acc (u.day, u.startHour, u.endHour) (alternatives.map fullName))
    []
  ⟨st2.schedule, st2.hours, low_hour_workers, unassigned_workers,
    alternative_solutions, st2.unfilled, work_study_issues⟩

/-- All shifts of a schedule, across days. -/
def allShifts (sched : List (String × List Shift)) : List Shift :=
  sched.flatMap (fun e => e.2)

/-- Total shift hours a schedule attributes to one email: the sum of the
durations of the shifts whose `raw_assigned` list contains it. -/
def shiftTotal (sched : List (String × List Shift)) (email : String) : ℚ :=
  (((allShifts sched).filter (fun s => s.raw_assigned.contains email)).map
    (fun s => s.endHour - s.startHour)).sum

/-- The sorted eligible-worker list computed inside `processCandidate`
(App.py lines 377-399), named for the correctness lemmas. -/
def candSorted (workers : List Worker) (statuses : List (String × Bool))
    (max_hours_per_worker : ℚ) (day : String) (cur send : ℚ) (st : GenState) :
    List Worker :=
  sortedAvailable st.hours
    (availableWorkersFor workers statuses st.hours day cur send max_hours_per_worker)
    (genRands
      (availableWorkersFor workers statuses st.hours day cur send max_hours_per_worker).length
      st.rng).1

/-- The workers assigned to one candidate shift (App.py line 403). -/
def candAssigned (workers : List Worker) (statuses : List (String × Bool))
    (max_hours_per_worker : ℚ) (max_workers_per_shift : Nat) (day : String)
    (cur send : ℚ) (st : GenState) : List Worker :=
  (candSorted workers statuses max_hours_per_worker day cur send st).take
    max_workers_per_shift

/-- The shift record appended to the schedule by `processCandidate`
(App.py lines 422-429), named for the correctness lemmas. -/
def candShift (workers : List Worker) (statuses : List (String × Bool))
    (max_hours_per_worker : ℚ) (max_workers_per_shift : Nat) (day : String)
    (cur send : ℚ) (st : GenState) : Shift :=
  let sorted := candSorted workers statuses max_hours_per_worker day cur send st
  let assigned := candAssigned workers statuses max_hours_per_worker
    max_workers_per_shift day cur send st
  { startHour := cur
    endHour := send
    assigned := if assigned.isEmpty then ["Unfilled"] else assigned.map fullName
    available := sorted.map fullName
    raw_assigned := assigned.map (fun w => w.email)
    all_available := sorted
    is_work_study := false }

/-- A concrete work-study worker available Monday 9:00-14:00, used in
concrete evaluations of the engine. -/
def exWorkerWS : Worker := ⟨"b@x", "C", "D", true, [("Monday", [⟨9, 14⟩])]⟩

/-- A concrete regular worker available Monday 9:00-13:00, used in
concrete evaluations of the engine. -/
def exWorkerReg : Worker := ⟨"a@x", "A", "B", false, [("Monday", [⟨9, 13⟩])]⟩

/-- Claim C1's run invariant: every work-study worker's ledger entry is
exactly 0 or exactly 5. -/
def WsHoursInv (workers : List Worker) (st : GenState) : Prop :=
  ∀ w ∈ workers, w.work_study = true →
    dictGetD st.hours w.email 0 = 0 ∨ dictGetD st.hours w.email 0 = 5

/-- Claim C2's run invariant: every worker's ledger entry respects the
hour cap. -/
def CapInv (workers : List Worker) (max_hours_per_worker : ℚ) (st : GenState) : Prop :=
  ∀ w ∈ workers, dictGetD st.hours w.email 0 ≤ max_hours_per_worker

/-- Claim C10's run invariant: the hour ledger equals the sum of shift
durations attributed to each worker by the schedule, and no shift lists a
worker twice. -/
def LedgerInv (workers : List Worker) (st : GenState) : Prop :=
  (∀ w ∈ workers, dictGetD st.hours w.email 0 = shiftTotal st.schedule w.email) ∧
  (∀ s ∈ allShifts st.schedule, s.raw_assigned.Nodup)

theorem dictGetD_dictSet_self {β : Type} (l : List (String × β)) (k : String) (v d : β) :
    dictGetD (dictSet l k v) k d = v := by
  induction l with
  | nil => simp [dictSet, dictGetD]
  | cons e rest ih =>
    obtain ⟨a, b⟩ := e
    by_cases h : a = k
    · simp [dictSet, dictGetD, h]
    · simp [dictSet, dictGetD, h, ih]

theorem dictGetD_dictSet_ne {β : Type} (l : List (String × β)) (k k' : String)
    (hne : k' ≠ k) (v : β) (d : β) :
    dictGetD (dictSet l k v) k' d = dictGetD l k' d := by
  have hkk : ¬ k = k' := fun h => hne h.symm
  induction l with
  | nil => simp [dictSet, dictGetD, hkk]
  | cons e rest ih =>
    obtain ⟨a, b⟩ := e
    by_cases h : a = k
    · subst h
      have : ¬ a = k' := hkk
      simp [dictSet, dictGetD, this]
    · by_cases h2 : a = k'
      · simp [dictSet, dictGetD, h, h2, hne]
      · simp [dictSet, dictGetD, h, h2, ih]

theorem getD_foldl_dictSet_notin {β : Type} (f : Worker → β) (d : β) :
    ∀ (ws : List Worker) (acc : List (String × β)) (e : String),
      e ∉ ws.map Worker.email →
      dictGetD (ws.foldl (fun a w' => dictSet a w'.email (f w')) acc) e d = dictGetD acc e d := by
  intro ws
  induction ws with
  | nil => intro acc e _; rfl
  | cons w rest ih =>
    intro acc e he
    simp only [List.map_cons, List.mem_cons, not_or] at he
    rw [List.foldl_cons, ih _ _ he.2, dictGetD_dictSet_ne _ _ _ he.1]

theorem getD_foldl_dictSet_mem {β : Type} (f : Worker → β) (d : β) :
    ∀ (ws : List Worker) (acc : List (String × β)) (w : Worker),
      w ∈ ws → (ws.map Worker.email).Nodup →
      dictGetD (ws.foldl (fun a w' => dictSet a w'.email (f w')) acc) w.email d = f w := by
  intro ws
  induction ws with
  | nil => intro acc w h; exact absurd h (List.not_mem_nil w)
  | cons w0 rest ih =>
    intro acc w hmem hnd
    simp only [List.map_cons, List.nodup_cons] at hnd
    rcases List.mem_cons.1 hmem with h | h
    · subst h
      rw [List.foldl_cons, getD_foldl_dictSet_notin f d rest _ _ hnd.1,
        dictGetD_dictSet_self]
    · rw [List.foldl_cons]
      exact ih _ w h hnd.2

theorem mkStatuses_getD (workers : List Worker) (w : Worker) (hmem : w ∈ workers)
    (hnd : (workers.map Worker.email).Nodup) :
    dictGetD (mkStatuses workers) w.email false = w.work_study :=
  getD_foldl_dictSet_mem _ _ workers [] w hmem hnd

theorem getD_foldl_zero :
    ∀ (ws : List Worker) (acc : List (String × ℚ)),
      (∀ e, dictGetD acc e 0 = 0) →
      ∀ e, dictGetD (ws.foldl (fun a w => dictSet a w.email (0 : ℚ)) acc) e 0 = 0 := by
  intro ws
  induction ws with
  | nil => intro acc h e; exact h e
  | cons w rest ih =>
    intro acc h e
    rw [List.foldl_cons]
    refine ih _ (fun e' => ?_) e
    by_cases he : e' = w.email
    · subst he; rw [dictGetD_dictSet_self]
    · rw [dictGetD_dictSet_ne _ _ _ he, h]

theorem genRands_length (n s : Nat) : (genRands n s).1.length = n := by
  induction n generalizing s with
  | zero => rfl
  | succ n ih => simp [genRands, ih]

theorem pickOut_perm {α : Type} :
    ∀ (l : List α) (i : Nat) (x : α) (rest : List α),
      pickOut l i = some (x, rest) → l.Perm (x :: rest) := by
  intro l
  induction l with
  | nil => intro i x rest h; simp [pickOut] at h
  | cons y ys ih =>
    intro i x rest h
    cases i with
    | zero =>
      simp only [pickOut, Option.some.injEq, Prod.mk.injEq] at h
      rw [← h.1, ← h.2]
    | succ i =>
      simp only [pickOut] at h
      cases hp : pickOut ys i with
      | none => rw [hp] at h; simp at h
      | some p =>
        rw [hp] at h
        simp only [Option.some.injEq] at h
        obtain ⟨z, zs⟩ := p
        simp only [Prod.mk.injEq] at h
        rw [← h.1, ← h.2]
        exact ((ih i z zs hp).cons y).trans (List.Perm.swap z y zs)

theorem shuffleGo_perm {α : Type} :
    ∀ (n : Nat) (l : List α) (s : Nat), (shuffleGo n l s).1.Perm l := by
  intro n
  induction n with
  | zero => intro l s; exact List.Perm.refl l
  | succ n ih =>
    intro l s
    simp only [shuffleGo]
    cases hp : pickOut l (lcg s % l.length) with
    | none => exact List.Perm.refl _
    | some p =>
      obtain ⟨x, rest⟩ := p
      simp only [hp]
      exact ((ih rest _).cons x).trans (pickOut_perm _ _ _ _ hp).symm

theorem shuffle_perm {α : Type} (l : List α) (s : Nat) : (shuffle l s).1.Perm l :=
  shuffleGo_perm l.length l s

theorem mem_shuffle {α : Type} {a : α} {l : List α} {s : Nat} :
    a ∈ (shuffle l s).1 ↔ a ∈ l :=
  (shuffle_perm l s).mem_iff

theorem stableInsert_perm {α : Type} (le : α → α → Bool) (x : α) :
    ∀ l : List α, (stableInsert le x l).Perm (x :: l) := by
  intro l
  induction l with
  | nil => exact List.Perm.refl [x]
  | cons y ys ih =>
    simp only [stableInsert]
    by_cases h : le y x = true
    · rw [if_pos h]
      exact (ih.cons y).trans (List.Perm.swap x y ys)
    · rw [if_neg h]

theorem stableSort_aux_perm {α : Type} (le : α → α → Bool) :
    ∀ (l acc : List α),
      (l.foldl (fun a x => stableInsert le x a) acc).Perm (acc ++ l) := by
  intro l
  induction l with
  | nil => intro acc; simp
  | cons x xs ih =>
    intro acc
    rw [List.foldl_cons]
    refine (ih _).trans ?_
    refine (((stableInsert_perm le x acc).append_right xs).trans ?_)
    exact List.perm_middle.symm

theorem stableSort_perm {α : Type} (le : α → α → Bool) (l : List α) :
    (stableSort le l).Perm l :=
  stableSort_aux_perm le l []

theorem assignFold_schedule (as : List Worker) (day : String) (dur : ℚ) :
    ∀ st : GenState, (assignFold as day dur st).schedule = st.schedule := by
  induction as with
  | nil => intro st; rfl
  | cons w rest ih => intro st; exact ih _

theorem assignFold_unfilled (as : List Worker) (day : String) (dur : ℚ) :
    ∀ st : GenState, (assignFold as day dur st).unfilled = st.unfilled := by
  induction as with
  | nil => intro st; rfl
  | cons w rest ih => intro st; exact ih _

theorem assignFold_rng (as : List Worker) (day : String) (dur : ℚ) :
    ∀ st : GenState, (assignFold as day dur st).rng = st.rng := by
  induction as with
  | nil => intro st; rfl
  | cons w rest ih => intro st; exact ih _

theorem assignFold_hours_getD (as : List Worker) (day : String) (dur : ℚ) :
    ∀ st : GenState, (as.map Worker.email).Nodup → ∀ e : String,
      dictGetD (assignFold as day dur st).hours e 0 =
        if e ∈ as.map Worker.email then dictGetD st.hours e 0 + dur
        else dictGetD st.hours e 0 := by
  induction as with
  | nil => intro st _ e; simp [assignFold]
  | cons w rest ih =>
    intro st hnd e
    simp only [List.map_cons, List.nodup_cons] at hnd
    have step : assignFold (w :: rest) day dur st =
        assignFold rest day dur
          { st with
            hours := dictSet st.hours w.email (dictGetD st.hours w.email 0 + dur)
            days := addDay st.days w.email day } := rfl
    rw [step, ih _ hnd.2 e]
    by_cases he : e = w.email
    · have hrest : e ∉ rest.map Worker.email := by rw [he]; exact hnd.1
      have hmem : e ∈ (w :: rest).map Worker.email := by simp [he]
      rw [if_neg hrest, if_pos hmem]
      show dictGetD (dictSet st.hours w.email (dictGetD st.hours w.email 0 + dur)) e 0 =
        dictGetD st.hours e 0 + dur
      rw [he, dictGetD_dictSet_self]
    · by_cases hr : e ∈ rest.map Worker.email
      · have hmem : e ∈ (w :: rest).map Worker.email := by simp [hr]
        rw [if_pos hr, if_pos hmem, dictGetD_dictSet_ne _ _ _ he]
      · have hmem : e ∉ (w :: rest).map Worker.email := by simp [he, hr]
        rw [if_neg hr, if_neg hmem, dictGetD_dictSet_ne _ _ _ he]

theorem sortedAvailable_perm (hours : List (String × ℚ)) (avail : List Worker)
    (rands : List Nat) (hl : avail.length ≤ rands.length) :
    (sortedAvailable hours avail rands).Perm avail := by
  unfold sortedAvailable
  have h2 := (stableSort_perm (sortKeyLe hours) (avail.zip rands)).map (fun p => p.1)
  have h3 : (avail.zip rands).map (fun p : Worker × Nat => p.1) = avail :=
    List.map_fst_zip avail rands hl
  rw [h3] at h2
  exact h2

theorem allShifts_dictSet_append (sched : List (String × List Shift)) (day : String)
    (new : List Shift) :
    (allShifts (dictSet sched day (dictGetD sched day [] ++ new))).Perm
      (allShifts sched ++ new) := by
  induction sched with
  | nil => simp [dictSet, dictGetD, allShifts]
  | cons e rest ih =>
    obtain ⟨k, shs⟩ := e
    by_cases h : k = day
    · have hred : dictSet ((k, shs) :: rest) day
            (dictGetD ((k, shs) :: rest) day [] ++ new) = (k, shs ++ new) :: rest := by
        simp [dictSet, dictGetD, h]
      rw [hred]
      show ((shs ++ new) ++ allShifts rest).Perm ((shs ++ allShifts rest) ++ new)
      rw [List.append_assoc, List.append_assoc]
      exact List.Perm.append_left shs List.perm_append_comm
    · have hred : dictSet ((k, shs) :: rest) day
            (dictGetD ((k, shs) :: rest) day [] ++ new) =
            (k, shs) :: dictSet rest day (dictGetD rest day [] ++ new) := by
        simp [dictSet, dictGetD, h]
      rw [hred]
      show (shs ++ allShifts (dictSet rest day (dictGetD rest day [] ++ new))).Perm
        ((shs ++ allShifts rest) ++ new)
      rw [List.append_assoc]
      exact List.Perm.append_left shs ih

theorem shiftTotal_of_perm {s1 s2 : List (String × List Shift)} (e : String)
    (h : (allShifts s1).Perm (allShifts s2)) : shiftTotal s1 e = shiftTotal s2 e := by
  unfold shiftTotal
  exact List.Perm.sum_eq ((h.filter _).map _)

theorem shiftTotal_dictSet_append (sched : List (String × List Shift)) (day : String)
    (sh : Shift) (e : String) :
    shiftTotal (dictSet sched day (dictGetD sched day [] ++ [sh])) e =
      shiftTotal sched e +
        (if sh.raw_assigned.contains e then sh.endHour - sh.startHour else 0) := by
  have hp := allShifts_dictSet_append sched day [sh]
  have h1 : shiftTotal (dictSet sched day (dictGetD sched day [] ++ [sh])) e =
      (((allShifts sched ++ [sh]).filter (fun s => s.raw_assigned.contains e)).map
        (fun s => s.endHour - s.startHour)).sum :=
    List.Perm.sum_eq ((hp.filter _).map _)
  rw [h1, List.filter_append, List.map_append, List.sum_append]
  by_cases hc : sh.raw_assigned.contains e = true
  · have hm : e ∈ sh.raw_assigned := List.elem_iff.1 hc
    have hf : List.filter (fun s => s.raw_assigned.contains e) [sh] = [sh] := by
      simp [List.filter_cons, hm]
    rw [hf, if_pos hc]
    simp [shiftTotal]
  · have hm : e ∉ sh.raw_assigned := fun h => hc (List.elem_iff.2 h)
    have hf : List.filter (fun s => s.raw_assigned.contains e) [sh] = [] := by
      simp [List.filter_cons, hm]
    rw [hf, if_neg hc]
    simp [shiftTotal]

theorem mem_allShifts_dictSet_append {s : Shift} (sched : List (String × List Shift))
    (day : String) (sh : Shift) :
    s ∈ allShifts (dictSet sched day (dictGetD sched day [] ++ [sh])) ↔
      s ∈ allShifts sched ∨ s = sh := by
  rw [(allShifts_dictSet_append sched day [sh]).mem_iff]
  simp

theorem allShifts_append_empty_day (sched : List (String × List Shift)) (day : String) :
    allShifts (sched ++ [(day, [])]) = allShifts sched := by
  simp [allShifts]

theorem processCandidate_schedule (workers : List Worker) (statuses : List (String × Bool))
    (maxH : ℚ) (k : Nat) (day : String) (cur send : ℚ) (st : GenState) :
    (processCandidate workers statuses maxH k day cur send st).schedule =
      dictSet st.schedule day (dictGetD st.schedule day [] ++
        [candShift workers statuses maxH k day cur send st]) := by
  unfold processCandidate candShift candAssigned candSorted
  dsimp only
  rw [assignFold_schedule]

theorem processCandidate_unfilled (workers : List Worker) (statuses : List (String × Bool))
    (maxH : ℚ) (k : Nat) (day : String) (cur send : ℚ) (st : GenState) :
    (processCandidate workers statuses maxH k day cur send st).unfilled =
      if (candAssigned workers statuses maxH k day cur send st).isEmpty then
        st.unfilled ++ [⟨day, cur, send⟩]
      else st.unfilled := by
  unfold processCandidate candAssigned candSorted
  dsimp only
  rw [assignFold_unfilled]

theorem processCandidate_hours (workers : List Worker) (statuses : List (String × Bool))
    (maxH : ℚ) (k : Nat) (day : String) (cur send : ℚ) (st : GenState)
    (hnd : ((candAssigned workers statuses maxH k day cur send st).map Worker.email).Nodup)
    (e : String) :
    dictGetD (processCandidate workers statuses maxH k day cur send st).hours e 0 =
      if e ∈ (candAssigned workers statuses maxH k day cur send st).map Worker.email then
        dictGetD st.hours e 0 + (send - cur)
      else dictGetD st.hours e 0 := by
  unfold candAssigned candSorted at hnd
  unfold processCandidate
  dsimp only
  exact assignFold_hours_getD _ _ _ _ hnd e

theorem candSorted_perm (workers : List Worker) (statuses : List (String × Bool))
    (maxH : ℚ) (day : String) (cur send : ℚ) (st : GenState) :
    (candSorted workers statuses maxH day cur send st).Perm
      (availableWorkersFor workers statuses st.hours day cur send maxH) := by
  unfold candSorted
  exact sortedAvailable_perm _ _ _ (le_of_eq (genRands_length _ _).symm)

theorem mem_candAssigned_sub {w : Worker} (workers : List Worker)
    (statuses : List (String × Bool)) (maxH : ℚ) (k : Nat) (day : String)
    (cur send : ℚ) (st : GenState)
    (hw : w ∈ candAssigned workers statuses maxH k day cur send st) :
    w ∈ availableWorkersFor workers statuses st.hours day cur send maxH :=
  (candSorted_perm workers statuses maxH day cur send st).mem_iff.1
    ((List.take_subset _ _) hw)

theorem candAssigned_email_nodup (workers : List Worker) (statuses : List (String × Bool))
    (maxH : ℚ) (k : Nat) (day : String) (cur send : ℚ) (st : GenState)
    (hnd : (workers.map Worker.email).Nodup) :
    ((candAssigned workers statuses maxH k day cur send st).map Worker.email).Nodup := by
  have h1 : ((availableWorkersFor workers statuses st.hours day cur send maxH).map
      Worker.email).Nodup :=
    ((List.filter_sublist workers).map Worker.email).nodup hnd
  have h2 : ((candSorted workers statuses maxH day cur send st).map Worker.email).Nodup :=
    (((candSorted_perm workers statuses maxH day cur send st).map Worker.email).nodup_iff).2 h1
  exact ((List.take_sublist _ _).map Worker.email).nodup h2

theorem mem_availableWorkersFor {w : Worker} (workers : List Worker)
    (statuses : List (String × Bool)) (hours : List (String × ℚ)) (day : String)
    (cur send : ℚ) (maxH : ℚ) :
    w ∈ availableWorkersFor workers statuses hours day cur send maxH ↔
      w ∈ workers ∧
      (dictGetD statuses w.email false = true → ¬ 5 ≤ dictGetD hours w.email 0) ∧
      (dictGetD statuses w.email false = true → dictGetD hours w.email 0 = 0 →
        send - cur = 5) ∧
      is_worker_available w day cur send = true ∧
      dictGetD hours w.email 0 + (send - cur) ≤ maxH := by
  unfold availableWorkersFor
  rw [List.mem_filter]
  apply and_congr Iff.rfl
  cases hws : dictGetD statuses w.email false with
  | false => simp [hws]
  | true =>
    by_cases h0 : dictGetD hours w.email 0 = 0 <;>
      simp [hws, h0, not_and, Decidable.not_not, and_assoc]

theorem foldl_preserve {σ α : Type} (P : σ → Prop) (f : σ → α → σ)
    (h : ∀ s a, P s → P (f s a)) :
    ∀ (l : List α) (s : σ), P s → P (l.foldl f s) := by
  intro l
  induction l with
  | nil => intro s hs; exact hs
  | cons a rest ih => intro s hs; exact ih _ (h s a hs)

theorem fillSlot_preserve (workers : List Worker) (statuses : List (String × Bool))
    (maxH : ℚ) (k : Nat) (day : String) (lengths : List Nat) (slotEnd : ℚ)
    (P : GenState → Prop)
    (hrng : ∀ (st : GenState) (r : Nat), P st → P { st with rng := r })
    (hstep : ∀ (cur send : ℚ) (st : GenState), P st →
      P (processCandidate workers statuses maxH k day cur send st)) :
    ∀ (fuel : Nat) (cur : ℚ) (st : GenState), P st →
      P (fillSlot workers statuses maxH k day lengths slotEnd fuel cur st) := by
  intro fuel
  induction fuel with
  | zero => intro cur st h; exact h
  | succ fuel ih =>
    intro cur st h
    simp only [fillSlot]
    by_cases hc : cur < slotEnd
    · rw [if_pos hc]
      cases hf : (shuffle lengths st.rng).1.find?
          (fun (l : Nat) => decide (cur + (l : ℚ) ≤ slotEnd)) with
      | some l => exact ih _ _ (hstep _ _ _ (hrng _ _ h))
      | none =>
        cases hm : (shuffle lengths st.rng).1.min? with
        | some m => exact hstep _ _ _ (hrng _ _ h)
        | none => exact hrng _ _ h
    · rw [if_neg hc]; exact h

theorem processSlot_preserve (workers : List Worker) (statuses : List (String × Bool))
    (maxH : ℚ) (k : Nat) (day : String) (shift_lengths : List Nat)
    (P : GenState → Prop)
    (hrng : ∀ (st : GenState) (r : Nat), P st → P { st with rng := r })
    (hstep : ∀ (cur send : ℚ) (st : GenState), P st →
      P (processCandidate workers statuses maxH k day cur send st))
    (st : GenState) (slot : ℚ × ℚ) (h : P st) :
    P (processSlot workers statuses maxH k day shift_lengths st slot) := by
  unfold processSlot
  dsimp only
  by_cases hc : slot.2 - slot.1 < 2
  · rw [if_pos hc]; exact h
  · rw [if_neg hc]
    exact fillSlot_preserve workers statuses maxH k day _ _ P hrng hstep _ _ _ (hrng _ _ h)

theorem processOp_preserve (workers : List Worker) (statuses : List (String × Bool))
    (maxH : ℚ) (k : Nat) (shift_lengths : List Nat) (day : String)
    (P : GenState → Prop)
    (hrng : ∀ (st : GenState) (r : Nat), P st → P { st with rng := r })
    (hstep : ∀ (cur send : ℚ) (st : GenState), P st →
      P (processCandidate workers statuses maxH k day cur send st))
    (st : GenState) (op : OpBlock) (h : P st) :
    P (processOp workers statuses maxH k shift_lengths day st op) := by
  unfold processOp
  dsimp only
  exact foldl_preserve P _
    (fun s sl hs => processSlot_preserve workers statuses maxH k day shift_lengths
      P hrng hstep s sl hs) _ _ h

theorem processDay_preserve (hop : List (String × List OpBlock)) (workers : List Worker)
    (statuses : List (String × Bool)) (maxH : ℚ) (k : Nat) (shift_lengths : List Nat)
    (P : GenState → Prop)
    (hrng : ∀ (st : GenState) (r : Nat), P st → P { st with rng := r })
    (hens : ∀ (st : GenState) (day : String), P st →
      P { st with schedule := st.schedule ++ [(day, [])] })
    (hstep : ∀ (day : String) (cur send : ℚ) (st : GenState), P st →
      P (processCandidate workers statuses maxH k day cur send st))
    (st : GenState) (day : String) (h : P st) :
    P (processDay hop workers statuses maxH k shift_lengths st day) := by
  unfold processDay
  dsimp only
  by_cases hc : (dictGetD hop day []).isEmpty = true
  · rw [if_pos hc]; exact h
  · rw [if_neg hc]
    have h1 : P (if dictMem st.schedule day then st
        else { st with schedule := st.schedule ++ [(day, [])] }) := by
      by_cases hm : dictMem st.schedule day
      · rw [if_pos hm]; exact h
      · rw [if_neg hm]; exact hens _ _ h
    exact foldl_preserve P _
      (fun s op hs => processOp_preserve workers statuses maxH k shift_lengths day
        P hrng (hstep day) s op hs) _ _ (hrng _ _ h1)

theorem regularPass_preserve (hop : List (String × List OpBlock)) (workers : List Worker)
    (statuses : List (String × Bool)) (maxH : ℚ) (k : Nat) (shift_lengths : List Nat)
    (days_list : List String) (P : GenState → Prop)
    (hrng : ∀ (st : GenState) (r : Nat), P st → P { st with rng := r })
    (hens : ∀ (st : GenState) (day : String), P st →
      P { st with schedule := st.schedule ++ [(day, [])] })
    (hstep : ∀ (day : String) (cur send : ℚ) (st : GenState), P st →
      P (processCandidate workers statuses maxH k day cur send st))
    (st : GenState) (h : P st) :
    P (regularPass hop workers statuses maxH k shift_lengths days_list st) := by
  unfold regularPass
  exact foldl_preserve P _
    (fun s d hs => processDay_preserve hop workers statuses maxH k shift_lengths
      P hrng hens hstep s d hs) _ _ h

theorem wsPass_preserve (hop : List (String × List OpBlock)) (wsws : List Worker)
    (P : GenState → Prop)
    (hws : ∀ (st : GenState) (w : Worker), P st → P (wsAssign hop st w))
    (st : GenState) (h : P st) : P (wsPass hop wsws st) := by
  unfold wsPass
  exact foldl_preserve P _ (fun s w hs => hws s w hs) _ _ h

theorem wsAssign_spec (hop : List (String × List OpBlock)) (st : GenState) (w : Worker) :
    ((wsAssign hop st w).schedule = st.schedule ∧
     (wsAssign hop st w).hours = st.hours ∧
     (wsAssign hop st w).unfilled = st.unfilled) ∨
    (¬ 5 ≤ dictGetD st.hours w.email 0 ∧
     ∃ day q, (wsAssign hop st w).schedule =
        dictSet st.schedule day (dictGetD st.schedule day [] ++
          [⟨q, q + 5, [fullName w], [fullName w], [w.email], [w], true⟩]) ∧
       (wsAssign hop st w).hours = dictSet st.hours w.email 5 ∧
       (wsAssign hop st w).unfilled = st.unfilled) := by
  unfold wsAssign
  by_cases hc : 5 ≤ dictGetD st.hours w.email 0
  · rw [if_pos hc]; exact Or.inl ⟨rfl, rfl, rfl⟩
  · rw [if_neg hc]
    cases hs : wsScanDays w hop st.rng with
    | mk found r =>
      cases found with
      | none => exact Or.inl ⟨rfl, rfl, rfl⟩
      | some dq => exact Or.inr ⟨hc, dq.1, dq.2, rfl, rfl, rfl⟩

theorem processCandidate_wsHoursInv (workers : List Worker) (maxH : ℚ) (k : Nat)
    (day : String) (cur send : ℚ) (st : GenState)
    (hnd : (workers.map Worker.email).Nodup)
    (h : WsHoursInv workers st) :
    WsHoursInv workers (processCandidate workers (mkStatuses workers) maxH k day cur send st) := by
  intro w hw hws
  rw [processCandidate_hours _ _ _ _ _ _ _ _
    (candAssigned_email_nodup _ _ _ _ _ _ _ _ hnd)]
  by_cases hmem : w.email ∈
      (candAssigned workers (mkStatuses workers) maxH k day cur send st).map Worker.email
  · rw [if_pos hmem]
    obtain ⟨w', hw', heq⟩ := List.mem_map.1 hmem
    have hav := mem_candAssigned_sub _ _ _ _ _ _ _ _ hw'
    rw [mem_availableWorkersFor] at hav
    obtain ⟨hw'mem, hc1, hc2, _, _⟩ := hav
    have hww : w' = w := List.inj_on_of_nodup_map hnd hw'mem hw heq
    subst hww
    have hstat : dictGetD (mkStatuses workers) w'.email false = true := by
      rw [mkStatuses_getD workers w' hw'mem hnd]; exact hws
    rcases h w' hw'mem hws with h0 | h5
    · rw [h0, hc2 hstat h0]
      right; norm_num
    · exact absurd (h5 ▸ le_refl (5 : ℚ)) (hc1 hstat)
  · rw [if_neg hmem]
    exact h w hw hws

theorem processCandidate_capInv (workers : List Worker) (maxH : ℚ) (k : Nat)
    (statuses : List (String × Bool)) (day : String) (cur send : ℚ) (st : GenState)
    (hnd : (workers.map Worker.email).Nodup)
    (h : CapInv workers maxH st) :
    CapInv workers maxH (processCandidate workers statuses maxH k day cur send st) := by
  intro w hw
  rw [processCandidate_hours _ _ _ _ _ _ _ _
    (candAssigned_email_nodup _ _ _ _ _ _ _ _ hnd)]
  by_cases hmem : w.email ∈
      (candAssigned workers statuses maxH k day cur send st).map Worker.email
  · rw [if_pos hmem]
    obtain ⟨w', hw', heq⟩ := List.mem_map.1 hmem
    have hav := mem_candAssigned_sub _ _ _ _ _ _ _ _ hw'
    rw [mem_availableWorkersFor] at hav
    rw [← heq]
    exact hav.2.2.2.2
  · rw [if_neg hmem]
    exact h w hw

theorem processCandidate_ledgerInv (workers : List Worker) (maxH : ℚ) (k : Nat)
    (statuses : List (String × Bool)) (day : String) (cur send : ℚ) (st : GenState)
    (hnd : (workers.map Worker.email).Nodup)
    (h : LedgerInv workers st) :
    LedgerInv workers (processCandidate workers statuses maxH k day cur send st) := by
  have hand := candAssigned_email_nodup workers statuses maxH k day cur send st hnd
  constructor
  · intro w hw
    rw [processCandidate_hours _ _ _ _ _ _ _ _ hand w.email,
      processCandidate_schedule, shiftTotal_dictSet_append]
    have hraw : (candShift workers statuses maxH k day cur send st).raw_assigned =
        (candAssigned workers statuses maxH k day cur send st).map
          (fun w => w.email) := rfl
    by_cases hmem : w.email ∈
        (candAssigned workers statuses maxH k day cur send st).map Worker.email
    · rw [if_pos hmem, h.1 w hw]
      have hcont : (candShift workers statuses maxH k day cur send st).raw_assigned.contains
          w.email = true := by
        rw [hraw]
        exact List.elem_iff.2 hmem
      rw [if_pos hcont]
      show shiftTotal st.schedule w.email + (send - cur) =
        shiftTotal st.schedule w.email + (send - cur)
      rfl
    · rw [if_neg hmem, h.1 w hw]
      have hcont : ¬ (candShift workers statuses maxH k day cur send st).raw_assigned.contains
          w.email = true := by
        rw [hraw]
        exact fun hc => hmem (List.elem_iff.1 hc)
      rw [if_neg hcont]
      norm_num
  · intro s hs
    rw [processCandidate_schedule] at hs
    rcases (mem_allShifts_dictSet_append _ _ _).1 hs with hold | hnew
    · exact h.2 s hold
    · subst hnew
      exact hand

theorem wsAssign_wsHoursInv (hop : List (String × List OpBlock)) (workers : List Worker)
    (st : GenState) (w : Worker) (h : WsHoursInv workers st) :
    WsHoursInv workers (wsAssign hop st w) := by
  rcases wsAssign_spec hop st w with ⟨_, hh, _⟩ | ⟨hc, day, q, _, hh, _⟩
  · intro w' hw' hws; rw [hh]; exact h w' hw' hws
  · intro w' hw' hws
    rw [hh]
    by_cases he : w'.email = w.email
    · rw [he, dictGetD_dictSet_self]; right; rfl
    · rw [dictGetD_dictSet_ne _ _ _ he]; exact h w' hw' hws

theorem wsAssign_capInv (hop : List (String × List OpBlock)) (workers : List Worker)
    (maxH : ℚ) (st : GenState) (w : Worker) (h5 : 5 ≤ maxH)
    (h : CapInv workers maxH st) : CapInv workers maxH (wsAssign hop st w) := by
  rcases wsAssign_spec hop st w with ⟨_, hh, _⟩ | ⟨hc, day, q, _, hh, _⟩
  · intro w' hw'; rw [hh]; exact h w' hw'
  · intro w' hw'
    rw [hh]
    by_cases he : w'.email = w.email
    · rw [he, dictGetD_dictSet_self]; exact h5
    · rw [dictGetD_dictSet_ne _ _ _ he]; exact h w' hw'

theorem wsAssign_ledgerInv (hop : List (String × List OpBlock)) (workers : List Worker)
    (st : GenState) (w : Worker) (hz : dictGetD st.hours w.email 0 = 0)
    (h : LedgerInv workers st) : LedgerInv workers (wsAssign hop st w) := by
  rcases wsAssign_spec hop st w with ⟨hs, hh, _⟩ | ⟨hc, day, q, hs, hh, _⟩
  · exact ⟨fun w' hw' => by rw [hh, hs]; exact h.1 w' hw',
      fun s hmem => h.2 s (hs ▸ hmem)⟩
  · constructor
    · intro w' hw'
      rw [hh, hs, shiftTotal_dictSet_append]
      by_cases he : w'.email = w.email
      · rw [he, dictGetD_dictSet_self]
        have hcont : ([w.email].contains w.email) = true := by simp
        show (5 : ℚ) = shiftTotal st.schedule w.email + _
        rw [hcont, if_pos rfl]
        have hold := h.1 w' hw'
        rw [he] at hold
        rw [← hold, hz]
        ring
      · rw [dictGetD_dictSet_ne _ _ _ he]
        have hcont : ([w.email].contains w'.email) = false := by
          simp only [List.contains_cons, List.contains_nil, Bool.or_false]
          exact beq_false_of_ne he
        rw [hcont]
        show dictGetD st.hours w'.email 0 = shiftTotal st.schedule w'.email + _
        rw [if_neg (by simp), add_zero]
        exact h.1 w' hw'
    · intro s hmem
      rw [hs] at hmem
      rcases (mem_allShifts_dictSet_append _ _ _).1 hmem with hold | hnew
      · exact h.2 s hold
      · subst hnew; simp

theorem wsAssign_hours_other (hop : List (String × List OpBlock)) (st : GenState)
    (w : Worker) (e : String) (he : e ≠ w.email) :
    dictGetD (wsAssign hop st w).hours e 0 = dictGetD st.hours e 0 := by
  rcases wsAssign_spec hop st w with ⟨_, hh, _⟩ | ⟨_, day, q, _, hh, _⟩
  · rw [hh]
  · rw [hh, dictGetD_dictSet_ne _ _ _ he]

theorem wsPass_ledgerInv (hop : List (String × List OpBlock)) (workers : List Worker) :
    ∀ (wsws : List Worker) (st : GenState),
      (wsws.map Worker.email).Nodup →
      (∀ w ∈ wsws, dictGetD st.hours w.email 0 = 0) →
      LedgerInv workers st → LedgerInv workers (wsPass hop wsws st) := by
  intro wsws
  induction wsws with
  | nil => intro st _ _ h; exact h
  | cons w rest ih =>
    intro st hnd hz h
    simp only [List.map_cons, List.nodup_cons] at hnd
    show LedgerInv workers (wsPass hop rest (wsAssign hop st w))
    refine ih _ hnd.2 ?_ (wsAssign_ledgerInv hop workers st w (hz w (by simp)) h)
    intro w' hw'
    have hne : w'.email ≠ w.email := by
      intro heq
      exact hnd.1 (heq ▸ List.mem_map_of_mem Worker.email hw')
    rw [wsAssign_hours_other hop st w _ hne]
    exact hz w' (List.mem_cons_of_mem w hw')

theorem filter_email_nodup (workers : List Worker) (p : Worker → Bool)
    (hnd : (workers.map Worker.email).Nodup) :
    ((workers.filter p).map Worker.email).Nodup :=
  ((List.filter_sublist workers).map Worker.email).nodup hnd

theorem shuffle_email_nodup (l : List Worker) (s : Nat)
    (hnd : (l.map Worker.email).Nodup) :
    (((shuffle l s).1).map Worker.email).Nodup :=
  (((shuffle_perm l s).map Worker.email).nodup_iff).2 hnd

theorem init_hours_zero (workers : List Worker) (e : String) :
    dictGetD (workers.foldl (fun d w => dictSet d w.email (0 : ℚ)) []) e 0 = 0 :=
  getD_foldl_zero workers [] (fun _ => rfl) e

theorem finalState_wsHoursInv (hop : List (String × List OpBlock)) (workers : List Worker)
    (maxH : ℚ) (k : Nat) (seed : Nat)
    (hnd : (workers.map Worker.email).Nodup) :
    WsHoursInv workers (finalState hop workers maxH k seed) := by
  unfold finalState
  dsimp only
  apply regularPass_preserve hop workers (mkStatuses workers) maxH k _ _
    (WsHoursInv workers)
    (fun st r h => h) (fun st day h => h)
    (fun day cur send st h =>
      processCandidate_wsHoursInv workers maxH k day cur send st hnd h)
  apply wsPass_preserve hop _ (WsHoursInv workers)
    (fun st w h => wsAssign_wsHoursInv hop workers st w h)
  intro w hw hws
  left
  exact init_hours_zero workers w.email

theorem finalState_capInv (hop : List (String × List OpBlock)) (workers : List Worker)
    (maxH : ℚ) (k : Nat) (seed : Nat)
    (hnd : (workers.map Worker.email).Nodup) (h5 : (5 : ℚ) ≤ maxH) :
    CapInv workers maxH (finalState hop workers maxH k seed) := by
  unfold finalState
  dsimp only
  apply regularPass_preserve hop workers (mkStatuses workers) maxH k _ _
    (CapInv workers maxH)
    (fun st r h => h) (fun st day h => h)
    (fun day cur send st h =>
      processCandidate_capInv workers maxH k (mkStatuses workers) day cur send st hnd h)
  apply wsPass_preserve hop _ (CapInv workers maxH)
    (fun st w h => wsAssign_capInv hop workers maxH st w h5 h)
  intro w hw
  rw [init_hours_zero workers w.email]
  linarith

theorem finalState_ledgerInv (hop : List (String × List OpBlock)) (workers : List Worker)
    (maxH : ℚ) (k : Nat) (seed : Nat)
    (hnd : (workers.map Worker.email).Nodup) :
    LedgerInv workers (finalState hop workers maxH k seed) := by
  unfold finalState
  dsimp only
  have hensL : ∀ (st : GenState) (day : String), LedgerInv workers st →
      LedgerInv workers { st with schedule := st.schedule ++ [(day, [])] } := by
    intro st day h
    constructor
    · intro w hw
      have hperm : (allShifts (st.schedule ++ [(day, [])])).Perm (allShifts st.schedule) := by
        rw [allShifts_append_empty_day]
      show dictGetD st.hours w.email 0 =
        shiftTotal (st.schedule ++ [(day, [])]) w.email
      rw [shiftTotal_of_perm w.email hperm]
      exact h.1 w hw
    · intro s hs
      show s.raw_assigned.Nodup
      have : s ∈ allShifts st.schedule := by
        rw [← allShifts_append_empty_day st.schedule day]
        exact hs
      exact h.2 s this
  apply regularPass_preserve hop workers (mkStatuses workers) maxH k _ _
    (LedgerInv workers)
    (fun st r h => h) hensL
    (fun day cur send st h =>
      processCandidate_ledgerInv workers maxH k (mkStatuses workers) day cur send st hnd h)
  apply wsPass_ledgerInv hop workers _ _
    (shuffle_email_nodup _ _ (filter_email_nodup workers _ hnd))
    (fun w _ => init_hours_zero workers w.email)
  constructor
  · intro w hw
    rw [init_hours_zero workers w.email]
    rfl
  · intro s hs
    exact absurd hs (List.not_mem_nil s)

/-- C1: for every valid input (unique worker emails, positive
`max_hours_per_worker` and `max_workers_per_shift`) and every seed, every
worker flagged work-study ends the generation run with a total in
`assigned_hours` that is exactly 0 or exactly 5 — never any other value
and never a fractional value. -/
theorem c1_work_study_hours_exact (hop : List (String × List OpBlock))
    (workers : List Worker) (workplace : String) (maxH : ℚ) (k : Nat) (seed : Nat)
    (hnd : (workers.map Worker.email).Nodup) (hmax : 0 < maxH) (hk : 0 < k) :
    ∀ w ∈ workers, w.work_study = true →
      dictGetD (create_shifts_from_availability hop workers workplace maxH k
        seed).assigned_hours w.email 0 = 0 ∨
      dictGetD (create_shifts_from_availability hop workers workplace maxH k
        seed).assigned_hours w.email 0 = 5 := by
  intro w hw hws
  have hres : (create_shifts_from_availability hop workers workplace maxH k
      seed).assigned_hours = (finalState hop workers maxH k seed).hours := rfl
  rw [hres]
  exact finalState_wsHoursInv hop workers maxH k seed hnd w hw hws

/-- C1 witness: the hypotheses hold and the conclusion is produced at a
concrete input (one work-study worker, cap 20, one worker per shift,
seed 0). -/
theorem c1_work_study_hours_exact_witness :
    (([exWorkerWS].map Worker.email).Nodup ∧ (0 : ℚ) < 20 ∧ 0 < 1 ∧
      exWorkerWS ∈ [exWorkerWS] ∧ exWorkerWS.work_study = true) ∧
    (dictGetD (create_shifts_from_availability [("Monday", [⟨9, 14⟩])] [exWorkerWS]
        "wp" 20 1 0).assigned_hours exWorkerWS.email 0 = 0 ∨
      dictGetD (create_shifts_from_availability [("Monday", [⟨9, 14⟩])] [exWorkerWS]
        "wp" 20 1 0).assigned_hours exWorkerWS.email 0 = 5) :=
  ⟨⟨by decide, by decide, by decide, by decide, rfl⟩,
    c1_work_study_hours_exact [("Monday", [⟨9, 14⟩])] [exWorkerWS] "wp" 20 1 0
      (by decide) (by decide) (by decide) exWorkerWS (by decide) rfl⟩

section
attribute [local semireducible] Rat.add Rat.sub Rat.mul Rat.inv
set_option maxRecDepth 12000

/-- C2 as frozen is false on the code: with `max_hours_per_worker = 3`
(positive) the work-study pre-pass, which performs no cap check, still
assigns 5 hours, so the final total exceeds the cap. -/
theorem c2_cap_counterexample :
    ¬ (dictGetD (create_shifts_from_availability [("Monday", [⟨9, 14⟩])] [exWorkerWS]
        "wp" 3 1 0).assigned_hours "b@x" 0 ≤ 3) := by
  decide

end

/-- C2 amended: the cap bound holds for every worker on every run
provided `max_hours_per_worker ≥ 5` (so that the cap-unchecked 5-hour
work-study pre-pass cannot overshoot), for rosters with unique emails. -/
theorem c2_cap_amended (hop : List (String × List OpBlock)) (workers : List Worker)
    (workplace : String) (maxH : ℚ) (k : Nat) (seed : Nat)
    (hnd : (workers.map Worker.email).Nodup) (h5 : (5 : ℚ) ≤ maxH) :
    ∀ w ∈ workers,
      dictGetD (create_shifts_from_availability hop workers workplace maxH k
        seed).assigned_hours w.email 0 ≤ maxH := by
  intro w hw
  have hres : (create_shifts_from_availability hop workers workplace maxH k
      seed).assigned_hours = (finalState hop workers maxH k seed).hours := rfl
  rw [hres]
  exact finalState_capInv hop workers maxH k seed hnd h5 w hw

/-- C2 amended witness at a concrete input with cap 20. -/
theorem c2_cap_amended_witness :
    (([exWorkerWS].map Worker.email).Nodup ∧ (5 : ℚ) ≤ 20 ∧ exWorkerWS ∈ [exWorkerWS]) ∧
    dictGetD (create_shifts_from_availability [("Monday", [⟨9, 14⟩])] [exWorkerWS]
      "wp" 20 1 0).assigned_hours exWorkerWS.email 0 ≤ 20 :=
  ⟨⟨by decide, by decide, by decide⟩,
    c2_cap_amended [("Monday", [⟨9, 14⟩])] [exWorkerWS] "wp" 20 1 0
      (by decide) (by decide) exWorkerWS (by decide)⟩

/-- C10: with unique worker emails, each worker's `assigned_hours` entry
equals the sum of the durations of the returned schedule's shifts whose
`raw_assigned` list contains the worker's email, and no shift lists any
email twice. -/
theorem c10_hours_ledger (hop : List (String × List OpBlock)) (workers : List Worker)
    (workplace : String) (maxH : ℚ) (k : Nat) (seed : Nat)
    (hnd : (workers.map Worker.email).Nodup) :
    (∀ w ∈ workers,
      dictGetD (create_shifts_from_availability hop workers workplace maxH k
        seed).assigned_hours w.email 0 =
      shiftTotal (create_shifts_from_availability hop workers workplace maxH k
        seed).schedule w.email) ∧
    (∀ s ∈ allShifts (create_shifts_from_availability hop workers workplace maxH k
        seed).schedule, s.raw_assigned.Nodup) := by
  have h := finalState_ledgerInv hop workers maxH k seed hnd
  exact ⟨fun w hw => h.1 w hw, fun s hs => h.2 s hs⟩

/-- C10 witness at a concrete input (work-study worker, cap 20, seed 0). -/
theorem c10_hours_ledger_witness :
    ([exWorkerWS].map Worker.email).Nodup ∧
    ((∀ w ∈ [exWorkerWS],
      dictGetD (create_shifts_from_availability [("Monday", [⟨9, 14⟩])] [exWorkerWS]
        "wp" 20 1 0).assigned_hours w.email 0 =
      shiftTotal (create_shifts_from_availability [("Monday", [⟨9, 14⟩])] [exWorkerWS]
        "wp" 20 1 0).schedule w.email) ∧
    (∀ s ∈ allShifts (create_shifts_from_availability [("Monday", [⟨9, 14⟩])] [exWorkerWS]
        "wp" 20 1 0).schedule, s.raw_assigned.Nodup)) :=
  ⟨by decide,
    c10_hours_ledger [("Monday", [⟨9, 14⟩])] [exWorkerWS] "wp" 20 1 0 (by decide)⟩

/-- C3: `is_worker_available` returns true iff some single availability
window of the worker for that day fully contains the shift interval; in
particular it returns false when no windows are recorded for the day, and
partial overlap never suffices. -/
theorem c3_availability_containment (w : Worker) (day : String) (s e : ℚ) :
    is_worker_available w day s e = true ↔
      ∃ win ∈ dictGetD w.availability day [], win.startHour ≤ s ∧ e ≤ win.endHour := by
  unfold is_worker_available
  rw [List.any_eq_true]
  simp

/-- C9: the generation run is a pure function of its inputs and the
per-run seed: two runs with equal inputs and equal seeds return equal
`ScheduleResult`s, with no hidden source of variation. -/
theorem c9_deterministic (hop1 hop2 : List (String × List OpBlock))
    (workers1 workers2 : List Worker) (wp1 wp2 : String) (m1 m2 : ℚ)
    (k1 k2 : Nat) (s1 s2 : Nat)
    (hh : hop1 = hop2) (hw : workers1 = workers2) (hwp : wp1 = wp2)
    (hm : m1 = m2) (hk : k1 = k2) (hs : s1 = s2) :
    create_shifts_from_availability hop1 workers1 wp1 m1 k1 s1 =
      create_shifts_from_availability hop2 workers2 wp2 m2 k2 s2 := by
  rw [hh, hw, hwp, hm, hk, hs]

/-- C9 witness: two textually separate runs with the same concrete inputs
and seed agree. -/
theorem c9_deterministic_witness :
    ([("Monday", [(⟨9, 14⟩ : OpBlock)])] = [("Monday", [(⟨9, 14⟩ : OpBlock)])]) ∧
    ([exWorkerWS] = [exWorkerWS]) ∧ ("wp" = "wp") ∧ ((20 : ℚ) = 20) ∧
    (1 = 1) ∧ (7 = 7) ∧
    create_shifts_from_availability [("Monday", [⟨9, 14⟩])] [exWorkerWS] "wp" 20 1 7 =
      create_shifts_from_availability [("Monday", [⟨9, 14⟩])] [exWorkerWS] "wp" 20 1 7 :=
  ⟨rfl, rfl, rfl, rfl, rfl, rfl,
    c9_deterministic [("Monday", [⟨9, 14⟩])] [("Monday", [⟨9, 14⟩])] [exWorkerWS]
      [exWorkerWS] "wp" "wp" 20 20 1 1 7 7 rfl rfl rfl rfl rfl rfl⟩

/-- C5 amended: at the engine's invocation (`assigned_hours = {}`,
cap argument `max_hours_per_worker * 1.5`, no exclusions), the
alternatives search returns exactly the workers available for the shift
under containment whose duration is at most `1.5 * 1.5 = 2.25` times
`max_hours_per_worker` — the relaxation factor is applied twice (once by
the caller at App.py line 468 and once inside `find_alternative_workers`
at line 195). -/
theorem c5_alternatives_amended (workers : List Worker) (day : String)
    (s e : ℚ) (maxH : ℚ) (w : Worker) :
    w ∈ find_alternative_workers workers day s e [] (maxH * (3 / 2)) [] ↔
      w ∈ workers ∧ is_worker_available w day s e = true ∧
        e - s ≤ maxH * (3 / 2) * (3 / 2) := by
  unfold find_alternative_workers
  rw [(stableSort_perm _ _).mem_iff, List.mem_filter]
  show w ∈ workers ∧
      (!([] : List String).contains w.email &&
        is_worker_available w day s e &&
        decide (dictGetD ([] : List (String × ℚ)) w.email 0 + (e - s) ≤
          maxH * (3 / 2) * (3 / 2))) = true ↔ _
  simp [dictGetD, and_assoc]

/-- C7 as frozen is false on the code: normalization is not uniform.  An
interval whose end equals its start is left as a zero-length window by
`parse_availability` (strict `<` at App.py line 113) but is extended by
24 hours as an operation block (non-strict `<=` at lines 246 and 312). -/
theorem c7_normalization_counterexample :
    (parse_window 10 10).endHour = 10 ∧ normalizeOpEnd 10 10 = 34 ∧
      ¬ ((10 : ℚ) = 10 + 24) := by
  refine ⟨?_, ?_, by norm_num⟩
  · show (if (10 : ℚ) < 10 then (10 : ℚ) + 24 else 10) = 10
    norm_num
  · show (if (10 : ℚ) ≤ 10 then (10 : ℚ) + 24 else 10) = 34
    norm_num

/-- C7 amended: operation blocks are normalized with the non-strict test
(`end ≤ start` adds 24) while availability windows are normalized with
the strict test (`end < start` adds 24); the two agree except when the
end equals the start, where only the operation block is treated as a
24-hour overnight continuation. -/
theorem c7_normalization_amended (s e : ℚ) :
    (e < s → (parse_window s e).endHour = e + 24 ∧ normalizeOpEnd s e = e + 24) ∧
    (s < e → (parse_window s e).endHour = e ∧ normalizeOpEnd s e = e) ∧
    (e = s → (parse_window s e).endHour = e ∧ normalizeOpEnd s e = e + 24) := by
  refine ⟨fun h => ⟨?_, ?_⟩, fun h => ⟨?_, ?_⟩, fun h => ⟨?_, ?_⟩⟩
  · show (if e < s then e + 24 else e) = e + 24
    rw [if_pos h]
  · unfold normalizeOpEnd
    rw [if_pos (le_of_lt h)]
  · show (if e < s then e + 24 else e) = e
    rw [if_neg (not_lt_of_gt h)]
  · unfold normalizeOpEnd
    rw [if_neg (not_le_of_gt h)]
  · show (if e < s then e + 24 else e) = e
    rw [if_neg (h ▸ lt_irrefl e)]
  · unfold normalizeOpEnd
    rw [if_pos (le_of_eq h)]

/-- C6 amended: `low_hour_workers` lists exactly the non-work-study
workers with fewer than 4 assigned hours including those at 0, and
`unassigned_workers` lists exactly the workers at 0 hours; a 0-hour
non-work-study worker therefore appears in both lists. -/
theorem c6_low_hours_amended (hop : List (String × List OpBlock)) (workers : List Worker)
    (workplace : String) (maxH : ℚ) (k : Nat) (seed : Nat)
    (hnd : (workers.map Worker.email).Nodup) :
    (create_shifts_from_availability hop workers workplace maxH k
        seed).low_hour_workers =
      (workers.filter (fun w => !w.work_study &&
        decide (dictGetD (create_shifts_from_availability hop workers workplace maxH k
          seed).assigned_hours w.email 0 < 4))).map fullName ∧
    (create_shifts_from_availability hop workers workplace maxH k
        seed).unassigned_workers =
      (workers.filter (fun w =>
        decide (dictGetD (create_shifts_from_availability hop workers workplace maxH k
          seed).assigned_hours w.email 0 = 0))).map fullName := by
  constructor
  · show (workers.filter (fun w => !(dictGetD (mkStatuses workers) w.email false) &&
        decide (dictGetD (finalState hop workers maxH k seed).hours w.email 0 < 4))).map
        fullName = _
    congr 1
    apply List.filter_congr
    intro a ha
    rw [mkStatuses_getD workers a ha hnd]
    rfl
  · rfl

/-- C6 amended witness at a concrete input: one 0-hour regular worker is
listed by both diagnostics. -/
theorem c6_low_hours_amended_witness :
    ([exWorkerReg].map Worker.email).Nodup ∧
    ((create_shifts_from_availability [("Monday", [])] [exWorkerReg] "wp" 20 1
        0).low_hour_workers =
      ([exWorkerReg].filter (fun w => !w.work_study &&
        decide (dictGetD (create_shifts_from_availability [("Monday", [])] [exWorkerReg]
          "wp" 20 1 0).assigned_hours w.email 0 < 4))).map fullName ∧
    (create_shifts_from_availability [("Monday", [])] [exWorkerReg] "wp" 20 1
        0).unassigned_workers =
      ([exWorkerReg].filter (fun w =>
        decide (dictGetD (create_shifts_from_availability [("Monday", [])] [exWorkerReg]
          "wp" 20 1 0).assigned_hours w.email 0 = 0))).map fullName) :=
  ⟨by decide, c6_low_hours_amended [("Monday", [])] [exWorkerReg] "wp" 20 1 0 (by decide)⟩

section
attribute [local semireducible] Rat.add Rat.sub Rat.mul Rat.inv
set_option maxRecDepth 12000

/-- C4 as frozen is false on the code: on the 3-hour block Monday
10:00-13:00 with an empty roster and seed 1, the partitioner emits the
shifts 10:00-12:00 and 12:00-13:00 — the too-short trailing remainder is
created as a standalone one-hour shift, not merged into the preceding
shift. -/
theorem c4_short_shift_counterexample :
    (allShifts (create_shifts_from_availability [("Monday", [⟨10, 13⟩])] [] "wp" 20 2
        1).schedule).any (fun sh => decide (sh.endHour - sh.startHour < 2)) = true := by
  decide

/-- C5 as frozen is false on the code: with `max_hours_per_worker = 2`
the unfilled 4-hour shift Monday 9:00-13:00 receives the worker as an
alternative even though `0 + 4 > 1.5 * 2 = 3` — the effective relaxation
is 2.25, not 1.5. -/
theorem c5_alternatives_counterexample :
    (create_shifts_from_availability [("Monday", [⟨9, 13⟩])] [exWorkerReg] "wp" 2 1
        0).alternative_solutions = [(("Monday", 9, 13), ["A B"])] ∧
    ¬ ((13 : ℚ) - 9 ≤ 2 * (3 / 2)) := by
  constructor
  · decide
  · decide

/-- C6 as frozen is false on the code: a non-work-study worker with
exactly 0 assigned hours appears in `low_hour_workers` (the code tests
`< 4` with no positive lower bound) as well as in `unassigned_workers`. -/
theorem c6_low_hours_counterexample :
    (create_shifts_from_availability [("Monday", [])] [exWorkerReg] "wp" 20 1
        0).low_hour_workers = ["A B"] ∧
    (create_shifts_from_availability [("Monday", [])] [exWorkerReg] "wp" 20 1
        0).unassigned_workers = ["A B"] ∧
    dictGetD (create_shifts_from_availability [("Monday", [])] [exWorkerReg] "wp" 20 1
        0).assigned_hours "a@x" 0 = 0 := by
  refine ⟨by decide, by decide, by decide⟩

end

/-- C8: for every candidate of the regular pass, exactly one shift record
is appended; when the eligible set is empty it carries the sentinel
`assigned = ["Unfilled"]`, an empty `available` list, an empty
`raw_assigned` list, and the `(day, start, end)` triple is appended to
`unfilled_shifts`; conversely a candidate that assigns at least one
worker leaves `unfilled_shifts` unchanged.  (No exception path exists:
`processCandidate` is a total function into `GenState`.) -/
theorem c8_unfilled_recording (workers : List Worker) (statuses : List (String × Bool))
    (maxH : ℚ) (k : Nat) (day : String) (cur send : ℚ) (st : GenState) :
    ∃ sh : Shift,
      (processCandidate workers statuses maxH k day cur send st).schedule =
        dictSet st.schedule day (dictGetD st.schedule day [] ++ [sh]) ∧
      sh.startHour = cur ∧ sh.endHour = send ∧
      (availableWorkersFor workers statuses st.hours day cur send maxH = [] →
        sh.assigned = ["Unfilled"] ∧ sh.available = [] ∧ sh.raw_assigned = [] ∧
        (processCandidate workers statuses maxH k day cur send st).unfilled =
          st.unfilled ++ [⟨day, cur, send⟩]) ∧
      (sh.raw_assigned ≠ [] →
        (processCandidate workers statuses maxH k day cur send st).unfilled =
          st.unfilled) := by
  refine ⟨candShift workers statuses maxH k day cur send st,
    processCandidate_schedule _ _ _ _ _ _ _ _, rfl, rfl, ?_, ?_⟩
  · intro hav
    have hsor : candSorted workers statuses maxH day cur send st = [] := by
      have hperm := candSorted_perm workers statuses maxH day cur send st
      rw [hav] at hperm
      exact hperm.eq_nil
    have hass : candAssigned workers statuses maxH k day cur send st = [] := by
      unfold candAssigned
      rw [hsor, List.take_nil]
    refine ⟨?_, ?_, ?_, ?_⟩
    · show (if (candAssigned workers statuses maxH k day cur send st).isEmpty then
          ["Unfilled"]
        else (candAssigned workers statuses maxH k day cur send st).map fullName) =
          ["Unfilled"]
      rw [hass]
      rfl
    · show (candSorted workers statuses maxH day cur send st).map fullName = []
      rw [hsor]
      rfl
    · show (candAssigned workers statuses maxH k day cur send st).map
          (fun w => w.email) = []
      rw [hass]
      rfl
    · rw [processCandidate_unfilled, if_pos (by rw [hass]; rfl)]
  · intro hraw
    rw [processCandidate_unfilled]
    have hne : ¬ (candAssigned workers statuses maxH k day cur send st).isEmpty = true := by
      intro hempty
      apply hraw
      show (candAssigned workers statuses maxH k day cur send st).map
        (fun w => w.email) = []
      rw [List.isEmpty_iff.1 hempty]
      rfl
    rw [if_neg hne]

/-- C4 amended: within one slot, every shift the peeling loop appends has
duration at least 2 hours except possibly a final capped shift, which is
emitted as a standalone shift record (not merged into its predecessor),
has positive duration, and ends exactly at the slot end. -/
theorem c4_min_length_amended (workers : List Worker) (statuses : List (String × Bool))
    (maxH : ℚ) (k : Nat) (day : String) (lengths : List Nat) (slotEnd : ℚ)
    (hlen : ∀ l ∈ lengths, 2 ≤ l) :
    ∀ (fuel : Nat) (cur : ℚ) (st : GenState),
      ∃ core tail : List Shift,
        dictGetD (fillSlot workers statuses maxH k day lengths slotEnd fuel cur
          st).schedule day [] = dictGetD st.schedule day [] ++ core ++ tail ∧
        (∀ s ∈ core, 2 ≤ s.endHour - s.startHour) ∧
        (tail = [] ∨ ∃ s, tail = [s] ∧ 0 < s.endHour - s.startHour ∧
          s.endHour = slotEnd) := by
  intro fuel
  induction fuel with
  | zero =>
    intro cur st
    exact ⟨[], [], by simp [fillSlot], by simp, Or.inl rfl⟩
  | succ fuel ih =>
    intro cur st
    simp only [fillSlot]
    by_cases hc : cur < slotEnd
    · rw [if_pos hc]
      cases hf : (shuffle lengths st.rng).1.find?
          (fun (l : Nat) => decide (cur + (l : ℚ) ≤ slotEnd)) with
      | some l =>
        obtain ⟨core', tail', heq, hcore, htail⟩ := ih (cur + (l : ℚ))
          (processCandidate workers statuses maxH k day cur (cur + (l : ℚ))
            { st with rng := (shuffle lengths st.rng).2 })
        refine ⟨candShift workers statuses maxH k day cur (cur + (l : ℚ))
          { st with rng := (shuffle lengths st.rng).2 } :: core', tail', ?_, ?_, htail⟩
        · rw [heq, processCandidate_schedule, dictGetD_dictSet_self]
          show dictGetD st.schedule day [] ++ _ ++ core' ++ tail' =
            dictGetD st.schedule day [] ++ _ ++ tail'
          rw [List.append_assoc (dictGetD st.schedule day []), List.singleton_append]
        · intro s hs
          rcases List.mem_cons.1 hs with hsh | hsc
          · subst hsh
            show (2 : ℚ) ≤ (cur + (l : ℚ)) - cur
            rw [add_sub_cancel_left]
            have hml : l ∈ lengths :=
              mem_shuffle.1 (List.mem_of_find?_eq_some hf)
            exact_mod_cast hlen l hml
          · exact hcore s hsc
      | none =>
        cases hm : (shuffle lengths st.rng).1.min? with
        | some m =>
          have hmm : m ∈ (shuffle lengths st.rng).1 := List.min?_mem min_choice hm
          have hnotle : ¬ (cur + (m : ℚ) ≤ slotEnd) := by
            have := List.find?_eq_none.1 hf m hmm
            simpa using this
          have hend : min (cur + (m : ℚ)) slotEnd = slotEnd :=
            min_eq_right (le_of_lt (lt_of_not_ge hnotle))
          refine ⟨[], [candShift workers statuses maxH k day cur
            (min (cur + (m : ℚ)) slotEnd) { st with rng := (shuffle lengths st.rng).2 }],
            ?_, by simp, Or.inr ⟨_, rfl, ?_, ?_⟩⟩
          · rw [processCandidate_schedule, dictGetD_dictSet_self]
            show dictGetD st.schedule day [] ++ _ = dictGetD st.schedule day [] ++ [] ++ _
            rw [List.append_nil]
          · show (0 : ℚ) < min (cur + (m : ℚ)) slotEnd - cur
            rw [hend]
            linarith
          · show min (cur + (m : ℚ)) slotEnd = slotEnd
            exact hend
        | none =>
          exact ⟨[], [], by simp, by simp, Or.inl rfl⟩
    · rw [if_neg hc]
      exact ⟨[], [], by simp, by simp, Or.inl rfl⟩

/-- C4 amended witness: the hypotheses hold and the conclusion is
produced at a concrete instance (lengths `[2, 3]`, slot `[0, 3)`,
one unit of fuel, empty initial state). -/
theorem c4_min_length_amended_witness :
    (∀ l ∈ [2, 3], 2 ≤ l) ∧
    (∃ core tail : List Shift,
      dictGetD (fillSlot [] [] 20 2 "Monday" [2, 3] 3 1 0
        ⟨[], [], [], [], 0⟩).schedule "Monday" [] =
        dictGetD (⟨[], [], [], [], 0⟩ : GenState).schedule "Monday" [] ++ core ++ tail ∧
      (∀ s ∈ core, 2 ≤ s.endHour - s.startHour) ∧
      (tail = [] ∨ ∃ s, tail = [s] ∧ 0 < s.endHour - s.startHour ∧ s.endHour = 3)) :=
  ⟨by decide,
    c4_min_length_amended [] [] 20 2 "Monday" [2, 3] 3 (by decide) 1 0 ⟨[], [], [], [], 0⟩⟩

theorem fillSlot_fuel_irrel (workers : List Worker) (statuses : List (String × Bool))
    (maxH : ℚ) (k : Nat) (day : String) (lengths : List Nat) (slotEnd : ℚ)
    (hlen : ∀ l ∈ lengths, 1 ≤ l) :
    ∀ (n1 n2 : Nat) (cur : ℚ) (st : GenState),
      (⌈slotEnd - cur⌉).toNat < n1 → (⌈slotEnd - cur⌉).toNat < n2 →
      fillSlot workers statuses maxH k day lengths slotEnd n1 cur st =
        fillSlot workers statuses maxH k day lengths slotEnd n2 cur st := by
  intro n1
  induction n1 with
  | zero => intro n2 cur st h1 _; exact absurd h1 (Nat.not_lt_zero _)
  | succ n1 ih =>
    intro n2 cur st h1 h2
    cases n2 with
    | zero => exact absurd h2 (Nat.not_lt_zero _)
    | succ n2 =>
      simp only [fillSlot]
      by_cases hc : cur < slotEnd
      · rw [if_pos hc, if_pos hc]
        cases hf : (shuffle lengths st.rng).1.find?
            (fun (l : Nat) => decide (cur + (l : ℚ) ≤ slotEnd)) with
        | some l =>
          have hml : l ∈ lengths := mem_shuffle.1 (List.mem_of_find?_eq_some hf)
          have hl1 : 1 ≤ l := hlen l hml
          have hceil : ⌈slotEnd - (cur + (l : ℚ))⌉ = ⌈slotEnd - cur⌉ - l := by
            rw [show slotEnd - (cur + (l : ℚ)) = slotEnd - cur - (l : ℚ) by ring,
              Int.ceil_sub_nat]
          have hpos : (1 : ℤ) ≤ ⌈slotEnd - cur⌉ :=
            Int.ceil_pos.2 (by linarith)
          apply ih
          · rw [hceil]; omega
          · rw [hceil]; omega
        | none =>
          cases hm : (shuffle lengths st.rng).1.min? with
          | some m => rfl
          | none => rfl
      · rw [if_neg hc, if_neg hc]

theorem slot_fuel_sufficient (a b : ℚ) (h : 0 ≤ b - a) :
    (⌈b - a⌉).toNat < (b - a).num.toNat + 1 := by
  have hnum : (b - a : ℚ) ≤ ((b - a).num : ℚ) := by
    conv_lhs => rw [← Rat.num_div_den (b - a)]
    apply div_le_self
    · exact_mod_cast Rat.num_nonneg.2 h
    · exact_mod_cast (b - a).pos
  have hceil : ⌈b - a⌉ ≤ (b - a).num := Int.ceil_le.2 hnum
  omega
